import Mathlib

/-
  Verification development for the favannat network-fabrication library.

  The embedding models f64 weights and signal values as rationals: every
  operation the fabricator and the evaluators perform on the inputs
  considered here (addition, multiplication, comparison with zero) is exact,
  so the rational model is faithful.  The f64 NaN sentinel used during
  column construction is modelled as Option (none = unset), which is the
  role the sentinel plays in the source.  Iteration over the dependency
  HashMap, whose order Rust leaves unspecified, is modelled as iteration
  over an association list in first-insertion order.
-/

namespace Favannat

/- Batteries marks the rational operations irreducible, which blocks only
the elaborator, not the kernel; concrete evaluations below are decided by
reduction, so restore default reducibility locally. -/
attribute [local semireducible] Rat.mul Rat.add Rat.sub

/-- An edge of the computation graph: start node id, end node id, weight
(EdgeLike in src/network/mod.rs; field endN is the source field end,
which is a Lean keyword). -/
structure Edge where
  start : Nat
  endN : Nat
  weight : ℚ
deriving DecidableEq

/-- A node: id plus scalar activation (NodeLike in src/network/mod.rs). -/
structure Node where
  id : Nat
  act : ℚ → ℚ

/-- A network with partitioned node lists plus ordinary and recurrent edges
(the NetworkLike / Recurrent contract and the example Net struct of
src/network/mod.rs). -/
structure Net where
  inputs : List Node
  hidden : List Node
  outputs : List Node
  edges : List Edge
  recEdges : List Edge

/-- The nodes() accessor: inputs ++ hidden ++ outputs (NetworkLike::nodes, and
the layout of the node vector of focus in the example Net). -/
def Net.nodes (n : Net) : List Node := n.inputs ++ n.hidden ++ n.outputs

/-- Activation lookup used by the fabricators:
net.nodes().iter().find(|node| node.id() == d).unwrap().activation().
The unwrap panics when no node carries the id d (reachable only on graphs
whose edges reference undeclared node ids); none models that panic and is
propagated to Fallible.panicked by the scheduler loop. -/
def actOf? (net : Net) (d : Nat) : Option (ℚ → ℚ) :=
  (net.nodes.find? (fun n => n.id == d)).map Node.act

/-- One insertion into the dependency graph:
dependency_graph.entry(edge.end()).and_modify(push).or_insert(vec![edge]). -/
def insertDep (g : List (Nat × List Edge)) (e : Edge) : List (Nat × List Edge) :=
  if g.any (fun kv => kv.1 == e.endN) then
    g.map (fun kv => if kv.1 = e.endN then (kv.1, kv.2 ++ [e]) else kv)
  else g ++ [(e.endN, [e])]

/-- Bucket all edges by their end node (Step 1 of the scheduler). -/
def buildDepGraph (edges : List Edge) : List (Nat × List Edge) :=
  edges.foldl insertDep []

/-- The three fabrication errors.  The source returns static strings:
"no edges present, net invalid", "can not resolve dependencies, net invalid"
(the source string is spelled with a contraction), and
"dependencies resolved but not all outputs computable, net invalid". -/
inductive FabError where
  | noEdges
  | cantResolve
  | outputsMissing
deriving DecidableEq

/-- Outcome of a fabrication call: a returned value, a returned error, or
a Rust panic (an out-of-range index write in the final reorder, a failed
assertion, or an unwrap of a missing node).  The loops below pair this
with an outer Option whose none means only that the loop fuel ran out,
which is proved unreachable. -/
inductive Fallible (α : Type) where
  | ok (val : α)
  | err (e : FabError)
  | panicked

/-- Outcome of the final-stage reorder: an out-of-range index write (a
panic in the source), not all wanted ids matched (the outputs-missing
error), or the reordered data. -/
inductive ReorderOut (α : Type) where
  | panicked
  | missing
  | done (val : α)

/-- Left fold that stops at the first step returning none, modelling a
statement sequence that can panic partway through. -/
def foldlOpt {α β : Type} (f : α → β → Option α) (init : α) (l : List β) : Option α :=
  l.foldl (fun o b => o.bind (fun a => f a b)) (some init)

/-- Write one dependency edge into the compute vector: for every position
whose available id equals the edge start, the weight is stored (the inner
for-loop over available_nodes in the scheduler). -/
def applyDep (avail : List Nat) (v : List (Option ℚ)) (e : Edge) : List (Option ℚ) :=
  List.zipWith (fun a x => if a = e.start then some e.weight else x) avail v

/-- Build the compute_or_carry vector for one dependent node, together with
the computable marker: all entries start unset (NaN), each dependency writes
its weight at the positions of its start id, and the node is computable iff
every dependency start is present among the available ids. -/
def buildColumn (avail : List Nat) (deps : List Edge) : List (Option ℚ) × Bool :=
  deps.foldl
    (fun vc e => (applyDep avail vc.1 e, vc.2 && avail.contains e.start))
    (List.replicate avail.length none, true)

/-- A one-hot carry column: zeros with a single 1.0 at position i. -/
def oneHot (n i : Nat) : List ℚ := (List.replicate n (0 : ℚ)).set i 1

/-- Accumulator for one compute stage: columns, activations and the
next_available_nodes list, grown in lockstep. -/
structure BuildState where
  cols : List (List ℚ)
  acts : List (ℚ → ℚ)
  next : List Nat

/-- Carry emission for a node that is not yet computable: every position
whose dependency was satisfied (entry set) and whose source is not already
in next_available gets a one-hot identity column. -/
def addCarries (avail : List Nat) (v : List (Option ℚ)) (st : BuildState) : BuildState :=
  (List.range avail.length).foldl
    (fun st i =>
      if avail.getD i 0 ∈ st.next ∨ v.getD i none = none then st
      else
        { cols := st.cols ++ [oneHot avail.length i]
          acts := st.acts ++ [fun v => v]
          next := st.next ++ [avail.getD i 0] })
    st

/-- Process one dependency-graph entry: emit the compute column when all
dependencies are available (unset entries replaced by 0.0), otherwise emit
carry columns for the satisfied dependencies.  none = the activation
lookup of a computable node panicked (unwrap of a missing node). -/
def processNode (act? : Nat → Option (ℚ → ℚ)) (avail : List Nat) (st : BuildState)
    (entry : Nat × List Edge) : Option BuildState :=
  let vc := buildColumn avail entry.2
  if vc.2 then
    match act? entry.1 with
    | none => none
    | some a =>
      some { cols := st.cols ++ [vc.1.map (fun o => o.getD 0)]
             acts := st.acts ++ [a]
             next := st.next ++ [entry.1] }
  else some (addCarries avail vc.1 st)

/-- Wanted preservation: every output id currently available and not yet in
next_available is carried with a one-hot identity column. -/
def keepWanted (avail wanted : List Nat) (st : BuildState) : BuildState :=
  wanted.foldl
    (fun st w =>
      (List.range avail.length).foldl
        (fun st i =>
          if avail.getD i 0 = w ∧ ¬ w ∈ st.next then
            { cols := st.cols ++ [oneHot avail.length i]
              acts := st.acts ++ [fun v => v]
              next := st.next ++ [w] }
          else st)
        st)
    st

/-- One full stage-construction round of the scheduler; none = a panic
during the dependency loop (the wanted-preservation loop then never
runs). -/
def buildStage (act? : Nat → Option (ℚ → ℚ)) (dep : List (Nat × List Edge))
    (avail wanted : List Nat) : Option BuildState :=
  (foldlOpt (processNode act? avail) ⟨[], [], []⟩ dep).map (keepWanted avail wanted)

/-- Accumulator for the final-stage reorder. -/
structure ReorderState where
  cols : List (List ℚ)
  acts : List (ℚ → ℚ)
  matched : Nat

/-- One step of the final reorder: the column produced for an available
node that equals the first matching wanted id is written to that wanted
index.  The source writes reordered_matrix[index] and then
reordered_transformations[index]; an index at or beyond the vector length
panics (none), which is reachable on well-formed nets whose final stage
has fewer columns than a matched wanted index. -/
def reorderStep (wanted : List Nat) (rs : ReorderState)
    (x : Nat × (List ℚ × (ℚ → ℚ))) : Option ReorderState :=
  match wanted.findIdx? (fun w => w == x.1) with
  | some i =>
    if i < rs.cols.length ∧ i < rs.acts.length then
      some ⟨rs.cols.set i x.2.1, rs.acts.set i x.2.2, rs.matched + 1⟩
    else none
  | none => some rs

/-- Final-stage reorder: permute columns so that column i corresponds to
wanted[i].  The matched-count check runs only after the write loop, so an
out-of-range write panics before the outputs-missing error can be
returned. -/
def reorderStage (wanted next : List Nat) (cols : List (List ℚ))
    (acts : List (ℚ → ℚ)) : ReorderOut (List (List ℚ) × List (ℚ → ℚ)) :=
  match foldlOpt (reorderStep wanted) ⟨cols, acts, 0⟩ (next.zip (cols.zip acts)) with
  | none => .panicked
  | some rs =>
    if rs.matched < wanted.length then .missing else .done (rs.cols, rs.acts)

/-- One compiled stage: the column list (each column has length = number of
available signals) and the activation per produced column.  The source
stores the same data as a Vec<Vec<f64>> of columns plus a transformation
vector, transposed into a dense matrix by get_arr2. -/
structure Stage where
  cols : List (List ℚ)
  acts : List (ℚ → ℚ)

/-- The scheduler loop of FeedForwardMatrixFabricator::fabricate
(src/matrix/fabricator.rs).  The fuel argument models the while-loop; one
unit is consumed per iteration, and the progress check guarantees that
dependency-graph size strictly shrinks, so fuel = initial size never runs
out (proved below).  none = fuel exhausted (unreachable). -/
def fabLoop (act? : Nat → Option (ℚ → ℚ)) (wanted : List Nat) :
    Nat → List (Nat × List Edge) → List Nat → Option (Fallible (List Stage))
  | 0, _, _ => none
  | fuel + 1, dep, avail =>
    if dep.isEmpty then some (.ok [])
    else
      match buildStage act? dep avail wanted with
      | none => some .panicked
      | some bs =>
        if (dep.filter (fun kv => ¬ kv.1 ∈ bs.next)).length = dep.length then
          some (.err .cantResolve)
        else if (dep.filter (fun kv => ¬ kv.1 ∈ bs.next)).isEmpty then
          match reorderStage wanted bs.next bs.cols bs.acts with
          | .panicked => some .panicked
          | .missing => some (.err .outputsMissing)
          | .done (c, a) => some (.ok [⟨c, a⟩])
        else
          match fabLoop act? wanted fuel (dep.filter (fun kv => ¬ kv.1 ∈ bs.next)) bs.next with
          | none => none
          | some .panicked => some .panicked
          | some (.err e) => some (.err e)
          | some (.ok rest) => some (.ok (⟨bs.cols, bs.acts⟩ :: rest))

/-- The fabricator core, parameterised exactly by what the source loop reads
from the net: the activation lookup, the input ids, the output ids and the
edge list.  Inputs and outputs are sorted ascending (sort_unstable). -/
def fabricateCore (act? : Nat → Option (ℚ → ℚ)) (inIds outIds : List Nat)
    (edges : List Edge) : Option (Fallible (List Stage)) :=
  let dep := buildDepGraph edges
  if dep.isEmpty then some (.err .noEdges)
  else
    fabLoop act? (List.insertionSort (· ≤ ·) outIds) dep.length dep
      (List.insertionSort (· ≤ ·) inIds)

/-- FeedForwardMatrixFabricator::fabricate, producing the stage list. -/
def fabricateStages (net : Net) : Option (Fallible (List Stage)) :=
  fabricateCore (actOf? net) (net.inputs.map Node.id) (net.outputs.map Node.id) net.edges

/-- The compiled dense evaluator: an ordered list of stages. -/
structure MatrixEvaluator where
  stages : List Stage

/-- Row-vector times column: state · column. -/
def dot (s c : List ℚ) : ℚ := (List.zipWith (· * ·) s c).sum

/-- Elementwise activation: state entries are zipped with the
transformation vector; entries beyond the transformation count are left
unchanged (iter_mut().zip stops at the shorter list). -/
def applyActs : List (ℚ → ℚ) → List ℚ → List ℚ
  | a :: ats, x :: xs => a x :: applyActs ats xs
  | [], xs => xs
  | _ :: _, [] => []

/-- Apply one stage: state := state · matrix, then activations
(MatrixEvaluator::evaluate body for one stage). -/
def Stage.applyTo (st : Stage) (state : List ℚ) : List ℚ :=
  applyActs st.acts (st.cols.map (fun c => dot state c))

/-- MatrixEvaluator::evaluate (src/matrix/evaluator.rs): fold the stages
over the input state. -/
def MatrixEvaluator.evaluate (ev : MatrixEvaluator) (input : List ℚ) : List ℚ :=
  ev.stages.foldl (fun s st => st.applyTo s) input

/-- FeedForwardMatrixFabricator::fabricate returning the evaluator. -/
def fabricateF (net : Net) : Option (Fallible MatrixEvaluator) :=
  (fabricateStages net).map (fun r =>
    match r with
    | .ok s => .ok ⟨s⟩
    | .err e => .err e
    | .panicked => .panicked)

/-- Run the dense pipeline: fabricate, then evaluate one input. -/
def denseRun (net : Net) (x : List ℚ) : Option (List ℚ) :=
  match fabricateF net with
  | some (.ok ev) => some (ev.evaluate x)
  | _ => none

/-! ## The unroll pass (net::unroll, src/network/mod.rs) -/

/-- The least natural number that is at least start and not among the known
ids (one next() of the fresh-id iterator).  The fuel bound known.length + 1
always suffices: among known.length + 1 consecutive candidates one is free;
the fallback branch is unreachable. -/
def nextFreshAux : Nat → Nat → List Nat → Nat
  | 0, start, _ => start
  | f + 1, start, known => if start ∈ known then nextFreshAux f (start + 1) known else start

/-- One fresh id: the first natural ≥ start outside the known ids. -/
def nextFresh (known : List Nat) (start : Nat) : Nat :=
  nextFreshAux (known.length + 1) start known

/-- Patch one edge: endpoints equal to oldId are rewritten to newId. -/
def patchEdge (oldId newId : Nat) (e : Edge) : Edge :=
  { start := if e.start = oldId then newId else e.start
    endN := if e.endN = oldId then newId else e.endN
    weight := e.weight }

/-- State of the re-identification phase: both edge lists being patched, the
fresh-id cursor, and the re-identified nodes produced so far. -/
structure ReIdState where
  edges : List Edge
  recEdges : List Edge
  cursor : Nat
  done : List Node

/-- Re-identify one node: draw the next fresh id, patch every ordinary and
recurrent edge, and record the node under its new id. -/
def reIdStep (known : List Nat) (s : ReIdState) (n : Node) : ReIdState :=
  let newId := nextFresh known s.cursor
  { edges := s.edges.map (patchEdge n.id newId)
    recEdges := s.recEdges.map (patchEdge n.id newId)
    cursor := newId + 1
    done := s.done ++ [{ id := newId, act := n.act }] }

/-- State of the wrapper-creation phase of unroll. -/
structure UnrollState where
  edges : List Edge
  inputs : List Node
  outputs : List Node
  umap : List (Nat × Nat)
  cursor : Nat

/-- Wrapper input for one original output node: a linear input node is
appended and the unroll map records output id → wrapper input id. -/
def addOutWrapper (known : List Nat) (s : UnrollState) (o : Node) : UnrollState :=
  let wIn := nextFresh known s.cursor
  { s with
      inputs := s.inputs ++ [{ id := wIn, act := fun v => v }]
      umap := s.umap ++ [(o.id, wIn)]
      cursor := wIn + 1 }

/-- Process one recurrent edge: when its start is already mapped only the
inward wrapping edge is added; otherwise a linear wrapper input and wrapper
output are created, the weight-1 outward carry edge and the inward edge are
added, and the map is extended. -/
def unrollRecStep (known : List Nat) (s : UnrollState) (re : Edge) : UnrollState :=
  match s.umap.lookup re.start with
  | some wid =>
    { s with edges := s.edges ++ [{ start := wid, endN := re.endN, weight := re.weight }] }
  | none =>
    let wIn := nextFresh known s.cursor
    let wOut := nextFresh known (wIn + 1)
    { edges := s.edges ++ [{ start := re.start, endN := wOut, weight := 1 }]
        ++ [{ start := wIn, endN := re.endN, weight := re.weight }]
      inputs := s.inputs ++ [{ id := wIn, act := fun v => v }]
      outputs := s.outputs ++ [{ id := wOut, act := fun v => v }]
      umap := s.umap ++ [(re.start, wIn)]
      cursor := wOut + 1 }

/-- The known (original) node ids, which fresh ids must avoid. -/
def knownIds (net : Net) : List Nat := net.nodes.map Node.id

/-- Phase 1 of unroll: re-identify the sorted original inputs. -/
def unrollPhaseIn (net : Net) : ReIdState :=
  (List.insertionSort (fun a b => Node.id a ≤ Node.id b) net.inputs).foldl
    (reIdStep (knownIds net)) ⟨net.edges, net.recEdges, 0, []⟩

/-- Phase 2 of unroll: re-identify the sorted original outputs. -/
def unrollPhaseOut (net : Net) : ReIdState :=
  (List.insertionSort (fun a b => Node.id a ≤ Node.id b) net.outputs).foldl
    (reIdStep (knownIds net))
    ⟨(unrollPhaseIn net).edges, (unrollPhaseIn net).recEdges, (unrollPhaseIn net).cursor, []⟩

/-- Phase 3 of unroll: one wrapper input per re-identified original
output. -/
def unrollPhase3 (net : Net) : UnrollState :=
  (unrollPhaseOut net).done.foldl (addOutWrapper (knownIds net))
    ⟨(unrollPhaseOut net).edges, (unrollPhaseIn net).done, (unrollPhaseOut net).done, [],
     (unrollPhaseOut net).cursor⟩

/-- Phase 4 of unroll: wrapper pairs and wrapping edges per recurrent
edge. -/
def unrollPhase4 (net : Net) : UnrollState :=
  (unrollPhaseOut net).recEdges.foldl (unrollRecStep (knownIds net)) (unrollPhase3 net)

/-- net::unroll (src/network/mod.rs): re-identify sorted inputs then sorted
outputs with the lowest fresh ids, create one wrapper input per original
output, then one wrapper input/output pair per unmapped recurrent-edge
source, and assemble the feedforward net (hidden nodes keep their ids, the
result has no recurrent edges). -/
def unroll (net : Net) : Net :=
  { inputs := (unrollPhase4 net).inputs, hidden := net.hidden
    outputs := (unrollPhase4 net).outputs
    edges := (unrollPhase4 net).edges, recEdges := [] }

/-! ## The recurrent fabricator and evaluator
(src/matrix/recurrent/fabricator.rs, src/matrix/recurrent/evaluator.rs) -/

/-- Modelled from the spec: MatrixFeedforwardFabricator::fabricate.  The
file src/matrix/feedforward/fabricator.rs is not among the provided
sources; only its callers and its evaluator are.  Per spec section 4.3 the
feedforward fabricator is the scheduler algorithm, which is exactly the
in-source FeedForwardMatrixFabricator embedded above (the in-source
MatrixFeedforwardEvaluator computes the same state *= matrix fold as
MatrixEvaluator.evaluate). -/
def matrixFeedforwardFabricate (net : Net) : Option (Fallible MatrixEvaluator) :=
  fabricateF net

/-- MatrixRecurrentEvaluator (src/matrix/recurrent/evaluator.rs): the
persisted memory row, the compiled feedforward evaluator and the original
output count. -/
structure MatrixRecurrentEvaluator where
  internal : List ℚ
  evaluator : MatrixEvaluator
  outputs : Nat

/-- MatrixRecurrentFabricator::fabricate: unroll, fabricate the unrolled
net, set memory = unrolled.outputs().len(), check the assertion
unrolled.inputs().len() - net.inputs().len() == memory (assert! panics when
false, modelled as none; proved unreachable below), and zero-initialise the
memory. -/
def fabricateRecurrent (net : Net) : Option (Fallible MatrixRecurrentEvaluator) :=
  match matrixFeedforwardFabricate (unroll net) with
  | none => none
  | some .panicked => some .panicked
  | some (.err e) => some (.err e)
  | some (.ok ev) =>
    if (unroll net).inputs.length - net.inputs.length = (unroll net).outputs.length then
      some (.ok ⟨List.replicate (unroll net).outputs.length 0, ev, net.outputs.length⟩)
    else some .panicked

/-- MatrixRecurrentEvaluator::evaluate: concatenate the input with the
memory, run the feedforward evaluator, store the whole result as the new
memory, and return its first outputs entries. -/
def MatrixRecurrentEvaluator.evaluate (ev : MatrixRecurrentEvaluator) (input : List ℚ) :
    List ℚ × MatrixRecurrentEvaluator :=
  let result := ev.evaluator.evaluate (input ++ ev.internal)
  (result.take ev.outputs, { ev with internal := result })

/-- Fabricate the recurrent evaluator and run it over an input sequence,
collecting the returned outputs. -/
def runRecurrent (net : Net) (ins : List (List ℚ)) : Option (List (List ℚ)) :=
  match fabricateRecurrent net with
  | some (.ok ev0) =>
    some ((ins.foldl
      (fun (acc : List (List ℚ) × MatrixRecurrentEvaluator) i =>
        let r := acc.2.evaluate i
        (acc.1 ++ [r.1], r.2))
      ([], ev0)).1)
  | _ => none

/-- First recurrent step observed in full: the returned vector and the new
memory vector. -/
def recStep1 (net : Net) (x : List ℚ) : Option (List ℚ × List ℚ) :=
  match fabricateRecurrent net with
  | some (.ok ev) => some ((ev.evaluate x).1, (ev.evaluate x).2.internal)
  | _ => none

/-- The allocated memory length of a freshly fabricated recurrent
evaluator. -/
def memLenOf (net : Net) : Option Nat :=
  match fabricateRecurrent net with
  | some (.ok ev) => some ev.internal.length
  | _ => none

/-! ## The sparse fabricator and evaluator
(src/sparse_matrix/fabricator.rs, src/sparse_matrix/evaluator.rs) -/

/-- Triplet (column index, row index, value) lists of one sparse stage. -/
structure Trip where
  cols : List Nat
  rows : List Nat
  data : List ℚ

/-- usize::MAX, the sentinel the sparse final reorder leaves in column
indices it never overwrites. -/
def usizeMax : Nat := 2 ^ 64 - 1

/-- Row positions of the available list holding the start id of one
dependency edge. -/
def depHits (avail : List Nat) (e : Edge) : List Nat :=
  (List.range avail.length).filter (fun i => avail.getD i 0 == e.start)

/-- Triplets contributed by one dependent node (all in its single column)
plus the computable marker. -/
def nodeTrip (avail : List Nat) (colIdx : Nat) (deps : List Edge) : Trip × Bool :=
  deps.foldl
    (fun acc e =>
      let hits := depHits avail e
      (⟨acc.1.cols ++ hits.map (fun _ => colIdx),
        acc.1.rows ++ hits,
        acc.1.data ++ hits.map (fun _ => e.weight)⟩,
       acc.2 && !hits.isEmpty))
    (⟨[], [], []⟩, true)

/-- Sparse stage accumulator: the running column counter, the stage
triplets, the activations and next_available_nodes. -/
structure SBuild where
  colIdx : Nat
  trip : Trip
  acts : List (ℚ → ℚ)
  next : List Nat

/-- Sparse carry emission: for each satisfied row of a non-computable node,
a single 1.0 triplet in a fresh column, unless the source is already in
next_available. -/
def sAddCarries (avail : List Nat) (rowsFound : List Nat) (st : SBuild) : SBuild :=
  rowsFound.foldl
    (fun st ri =>
      if avail.getD ri 0 ∈ st.next then st
      else
        { colIdx := st.colIdx + 1
          trip := ⟨st.trip.cols ++ [st.colIdx], st.trip.rows ++ [ri], st.trip.data ++ [1]⟩
          acts := st.acts ++ [fun v => v]
          next := st.next ++ [avail.getD ri 0] })
    st

/-- Process one dependency-graph entry in the sparse scheduler; none = the
activation unwrap of a computable node panicked. -/
def sProcessNode (act? : Nat → Option (ℚ → ℚ)) (avail : List Nat) (st : SBuild)
    (entry : Nat × List Edge) : Option SBuild :=
  let tb := nodeTrip avail st.colIdx entry.2
  if tb.2 then
    match act? entry.1 with
    | none => none
    | some a =>
      some { colIdx := st.colIdx + 1
             trip := ⟨st.trip.cols ++ tb.1.cols, st.trip.rows ++ tb.1.rows,
                      st.trip.data ++ tb.1.data⟩
             acts := st.acts ++ [a]
             next := st.next ++ [entry.1] }
  else some (sAddCarries avail tb.1.rows st)

/-- Sparse wanted preservation. -/
def sKeepWanted (avail wanted : List Nat) (st : SBuild) : SBuild :=
  wanted.foldl
    (fun st w =>
      (List.range avail.length).foldl
        (fun st i =>
          if avail.getD i 0 = w ∧ ¬ w ∈ st.next then
            { colIdx := st.colIdx + 1
              trip := ⟨st.trip.cols ++ [st.colIdx], st.trip.rows ++ [i], st.trip.data ++ [1]⟩
              acts := st.acts ++ [fun v => v]
              next := st.next ++ [w] }
          else st)
        st)
    st

/-- One full sparse stage-construction round; none = a panic during the
dependency loop. -/
def sBuildStage (act? : Nat → Option (ℚ → ℚ)) (dep : List (Nat × List Edge))
    (avail wanted : List Nat) : Option SBuild :=
  (foldlOpt (sProcessNode act? avail) ⟨0, ⟨[], [], []⟩, [], []⟩ dep).map
    (sKeepWanted avail wanted)

/-- Accumulator of the sparse final reorder. -/
structure SReorder where
  rCols : List Nat
  rActs : List (ℚ → ℚ)
  matched : Nat

/-- One sparse reorder step for the pair x = (old column index, available
node): triplet entries carrying the old column index are remapped to the
matching wanted index, reading the original column-index list. -/
def sReorderStep (wanted : List Nat) (cols0 : List Nat) (acts0 : List (ℚ → ℚ))
    (rs : SReorder) (x : Nat × Nat) : Option SReorder :=
  match wanted.findIdx? (fun w => w == x.2) with
  | some ni =>
    if ni < rs.rActs.length then
      some { rCols := List.zipWith (fun old r => if old = x.1 then ni else r) cols0 rs.rCols
             rActs := rs.rActs.set ni (acts0.getD x.1 (fun v => v))
             matched := rs.matched + 1 }
    else none
  | none => some rs

/-- Sparse final reorder: column indices start at the usize::MAX sentinel
and are remapped per matched node; fails when not all wanted ids match. -/
def sReorderStage (wanted next : List Nat) (t : Trip) (acts : List (ℚ → ℚ)) :
    ReorderOut (Trip × List (ℚ → ℚ)) :=
  match foldlOpt (sReorderStep wanted t.cols acts)
      ⟨List.replicate t.cols.length usizeMax, acts, 0⟩ next.enum with
  | none => .panicked
  | some rs =>
    if rs.matched < wanted.length then .missing
    else .done (⟨rs.rCols, t.rows, t.data⟩, rs.rActs)

/-- One compiled sparse stage: triplets plus activations. -/
structure SpStage where
  trip : Trip
  acts : List (ℚ → ℚ)

/-- The sparse scheduler loop (FeedForwardSparseMatrixFabricator::fabricate,
src/sparse_matrix/fabricator.rs); structure identical to fabLoop. -/
def sFabLoop (act? : Nat → Option (ℚ → ℚ)) (wanted : List Nat) :
    Nat → List (Nat × List Edge) → List Nat → Option (Fallible (List SpStage))
  | 0, _, _ => none
  | fuel + 1, dep, avail =>
    if dep.isEmpty then some (.ok [])
    else
      match sBuildStage act? dep avail wanted with
      | none => some .panicked
      | some bs =>
        if (dep.filter (fun kv => ¬ kv.1 ∈ bs.next)).length = dep.length then
          some (.err .cantResolve)
        else if (dep.filter (fun kv => ¬ kv.1 ∈ bs.next)).isEmpty then
          match sReorderStage wanted bs.next bs.trip bs.acts with
          | .panicked => some .panicked
          | .missing => some (.err .outputsMissing)
          | .done (t, a) => some (.ok [⟨t, a⟩])
        else
          match sFabLoop act? wanted fuel (dep.filter (fun kv => ¬ kv.1 ∈ bs.next)) bs.next with
          | none => none
          | some .panicked => some .panicked
          | some (.err e) => some (.err e)
          | some (.ok rest) => some (.ok (⟨bs.trip, bs.acts⟩ :: rest))

/-- FeedForwardSparseMatrixFabricator::fabricate. -/
def sFabricate (net : Net) : Option (Fallible (List SpStage)) :=
  let dep := buildDepGraph net.edges
  if dep.isEmpty then some (.err .noEdges)
  else
    sFabLoop (actOf? net) (List.insertionSort (· ≤ ·) (net.outputs.map Node.id)) dep.length dep
      (List.insertionSort (· ≤ ·) (net.inputs.map Node.id))

/-- Summed value of a triplet matrix at (row i, column j); sprs sums
duplicate triplets when converting to CSR. -/
def Trip.val (t : Trip) (i j : Nat) : ℚ :=
  ((t.rows.zip (t.cols.zip t.data)).filter (fun x => x.1 == i && x.2.1 == j)).foldl
    (fun a x => a + x.2.2) 0

/-- Whether position (row i, column j) is stored (part of the sparsity
pattern), independently of its numeric value. -/
def Trip.stored (t : Trip) (i j : Nat) : Bool :=
  (t.rows.zip t.cols).contains (i, j)

/-- Column count of the sparse stage matrix:
col_inds.iter().max().unwrap() + 1 (the source unwraps; stages are never
empty on the nets considered). -/
def Trip.nCols (t : Trip) : Nat := t.cols.foldl max 0 + 1

/-- Sparse row vector: some v = stored entry with value v, none = not
stored.  The conversion of a dense row into CSC storage keeps exactly the
nonzero entries. -/
def toSparseVec (v : List ℚ) : List (Option ℚ) :=
  v.map (fun x => if x = 0 then none else some x)

/-- Sparse row-vector times sparse matrix: position j of the product is
stored iff some stored entry of the vector meets a stored entry of column
j; its value is the usual dot product. -/
def spMul (sv : List (Option ℚ)) (t : Trip) : List (Option ℚ) :=
  (List.range t.nCols).map
    (fun j =>
      if (List.range sv.length).any (fun i => (sv.getD i none).isSome && t.stored i j) then
        some (((List.range sv.length).map
          (fun i => ((sv.getD i none).getD 0) * t.val i j)).sum)
      else none)

/-- The activation pass of the sparse evaluator: index_entry_mut(0, index) is
NonZero only for stored entries, so the activation is applied only to
stored positions (unstored positions are silently skipped). -/
def spAct (acts : List (ℚ → ℚ)) (sv : List (Option ℚ)) : List (Option ℚ) :=
  sv.mapIdx (fun j o => if j < acts.length then o.map (acts.getD j (fun v => v)) else o)

/-- SparseMatrixEvaluator::evaluate (src/sparse_matrix/evaluator.rs): fold
the stages over the sparsified input, remembering the transformation count
of the last stage, then read the first len entries back (unstored reads
as 0.0). -/
def spEvaluate (stages : List SpStage) (input : List ℚ) : List ℚ :=
  let fin := stages.foldl
    (fun (acc : List (Option ℚ) × Nat) st =>
      (spAct st.acts (spMul acc.1 st.trip), st.acts.length))
    (toSparseVec input, 0)
  (List.range fin.2).map (fun j => (fin.1.getD j none).getD 0)

/-- Run the sparse pipeline: fabricate, then evaluate one input. -/
def sparseRun (net : Net) (x : List ℚ) : Option (List ℚ) :=
  match sFabricate net with
  | some (.ok st) => some (spEvaluate st x)
  | _ => none

/-! ## Concrete nets used by the claims -/

/-- The linear activation (activations::LINEAR). -/
def idAct : ℚ → ℚ := fun v => v

/-- An activation with value 1 at 0, as the library activation GAUSSIAN
(value 1 at 0) and similar saturating activations have nonzero value at 0;
NodeLike callers supply arbitrary scalar functions. -/
def bumpAct : ℚ → ℚ := fun v => 1 - v * v

/-- Net for the C1 counterexample: input 0, hidden 1, output 2, edges 0→1
and 0→2 (both weight 1).  Both end nodes resolve in the single stage, so
the final stage has two columns for one declared output. -/
def netC1 : Net := ⟨[⟨0, idAct⟩], [⟨1, idAct⟩], [⟨2, idAct⟩], [⟨0, 1, 1⟩, ⟨0, 2, 1⟩], []⟩

/-- Column count of the final compiled stage. -/
def lastStageCols : List Stage → Option Nat
  | [] => none
  | [st] => some st.cols.length
  | _ :: rest => lastStageCols rest

/-- Final-stage column count of a fabricated net. -/
def lastColsRun (net : Net) : Option Nat :=
  match fabricateStages net with
  | some (.ok s) => lastStageCols s
  | _ => none

/-- Net for C5: one linear input 0, one output 1 with an activation whose
value at 0 is 1, one weight-1 edge. -/
def netC5 : Net := ⟨[⟨0, idAct⟩], [], [⟨1, bumpAct⟩], [⟨0, 1, 1⟩], []⟩

/-- Net for C6 with outputs declared in descending id order [3, 2] and
distinguishable weights: 0→3 weight 2, 0→2 weight 5. -/
def netC6 : Net := ⟨[⟨0, idAct⟩], [], [⟨3, idAct⟩, ⟨2, idAct⟩], [⟨0, 3, 2⟩, ⟨0, 2, 5⟩], []⟩

/-- The same net with outputs declared in ascending order. -/
def netC6b : Net := ⟨[⟨0, idAct⟩], [], [⟨2, idAct⟩, ⟨3, idAct⟩], [⟨0, 3, 2⟩, ⟨0, 2, 5⟩], []⟩

/-- Net for the C8 counterexample: input 0, outputs 10 and 20, single edge
0→20 with weight 1.  Every edge endpoint is a declared node, so the graph
satisfies the data-model invariants.  The single round resolves only node
20, and the final reorder writes its column at the wanted index of id 20,
which is 1 — beyond the length-1 column vector — so the source panics with
an index out of bounds instead of reporting the unproduced output 10. -/
def netC8 : Net := ⟨[⟨0, idAct⟩], [], [⟨10, idAct⟩, ⟨20, idAct⟩], [⟨0, 20, 1⟩], []⟩

/-- Net for C9: two ordinary edges share (start, end) = (0, 1) with weights
2 then 7. -/
def netC9 : Net := ⟨[⟨0, idAct⟩], [], [⟨1, idAct⟩], [⟨0, 1, 2⟩, ⟨0, 1, 7⟩], []⟩

/-- The recurrent net of spec scenario 5 (and the stateful_net_evaluator_0
tests of the repository): 2 inputs (0, 1), 2 outputs (2, 3),
ordinary edges 0→2 and 1→3 with weight 1, recurrent edges 0→2 and 1→3 with
weight 1. -/
def netC7 : Net :=
  ⟨[⟨0, idAct⟩, ⟨1, idAct⟩], [], [⟨2, idAct⟩, ⟨3, idAct⟩],
   [⟨0, 2, 1⟩, ⟨1, 3, 1⟩], [⟨0, 2, 1⟩, ⟨1, 3, 1⟩]⟩

/-- The concrete stage list fabricated from netC1 (used by the C1
witness). -/
def stagesC1 : List Stage :=
  match fabricateStages netC1 with
  | some (.ok s) => s
  | _ => []

/-- The concrete recurrent evaluator fabricated from netC7 (used by the C3
witness). -/
def evC3 : MatrixRecurrentEvaluator :=
  match fabricateRecurrent netC7 with
  | some (.ok ev) => ev
  | _ => ⟨[], ⟨[]⟩, 0⟩

/-- Dimension chaining of a compiled stage list: every column of each stage
has as many rows as the available-signal count n entering it, and each
stage makes its column count available to the next. -/
def chained : Nat → List Stage → Prop
  | _, [] => True
  | n, st :: rest => (∀ c ∈ st.cols, c.length = n) ∧ chained st.cols.length rest

/-- The stage-shape invariant: columns, activations and
next_available_nodes grow in lockstep, and every column has one entry per
available signal. -/
def GoodB (n : Nat) (st : BuildState) : Prop :=
  st.cols.length = st.next.length ∧ st.acts.length = st.next.length ∧
    ∀ c ∈ st.cols, c.length = n

/-! ## Theorems -/

theorem foldl_preserve {α β : Type} {P : α → Prop} {f : α → β → α} :
    ∀ (l : List β) (init : α), P init → (∀ a b, P a → P (f a b)) →
      P (List.foldl f init l)
  | [], _, h, _ => h
  | b :: l, init, h, hs => foldl_preserve l (f init b) (hs init b h) hs

theorem foldl_preserve_mem {α β : Type} {P : α → Prop} {f : α → β → α} :
    ∀ (l : List β) (l0 : List β) (init : α), P init →
      (∀ a b, b ∈ l0 → P a → P (f a b)) → (∀ b ∈ l, b ∈ l0) →
      P (List.foldl f init l)
  | [], _, _, h, _, _ => h
  | b :: l, l0, init, h, hs, hmem =>
    foldl_preserve_mem l l0 (f init b) (hs init b (hmem b (by simp)) h) hs
      (fun x hx => hmem x (by simp [hx]))

theorem foldl_bind_none {α β : Type} (f : α → β → Option α) :
    ∀ l : List β, l.foldl (fun o b => o.bind (fun a => f a b)) none = none
  | [] => rfl
  | _ :: l => foldl_bind_none f l

theorem foldlOpt_preserve {α β : Type} {P : α → Prop} {f : α → β → Option α}
    (hstep : ∀ a b a2, f a b = some a2 → P a → P a2) :
    ∀ (l : List β) (a a2 : α), foldlOpt f a l = some a2 → P a → P a2
  | [], a, a2, h, hp => by
    unfold foldlOpt at h
    simp only [List.foldl_nil, Option.some.injEq] at h
    rw [← h]
    exact hp
  | b :: l, a, a2, h, hp => by
    unfold foldlOpt at h
    rw [List.foldl_cons] at h
    rw [show ((some a).bind fun x => f x b) = f a b from rfl] at h
    cases hfb : f a b with
    | none =>
      rw [hfb, foldl_bind_none] at h
      exact absurd h (by simp)
    | some a1 =>
      rw [hfb] at h
      exact foldlOpt_preserve hstep l a1 a2 h (hstep a b a1 hfb hp)

theorem foldlOpt_preserve_mem {α β : Type} {P : α → Prop} {f : α → β → Option α}
    (l0 : List β) (hstep : ∀ a b a2, b ∈ l0 → f a b = some a2 → P a → P a2) :
    ∀ (l : List β), (∀ b ∈ l, b ∈ l0) →
      ∀ (a a2 : α), foldlOpt f a l = some a2 → P a → P a2
  | [], _, a, a2, h, hp => by
    unfold foldlOpt at h
    simp only [List.foldl_nil, Option.some.injEq] at h
    rw [← h]
    exact hp
  | b :: l, hmem, a, a2, h, hp => by
    unfold foldlOpt at h
    rw [List.foldl_cons] at h
    rw [show ((some a).bind fun x => f x b) = f a b from rfl] at h
    cases hfb : f a b with
    | none =>
      rw [hfb, foldl_bind_none] at h
      exact absurd h (by simp)
    | some a1 =>
      rw [hfb] at h
      exact foldlOpt_preserve_mem l0 hstep l (fun x hx => hmem x (by simp [hx])) a1 a2 h
        (hstep a b a1 (hmem b (by simp)) hfb hp)

theorem foldlOpt_bound {α β : Type} {g : α → Nat} {f : α → β → Option α}
    (hstep : ∀ a b a2, f a b = some a2 → g a2 ≤ g a + 1) :
    ∀ (l : List β) (a a2 : α), foldlOpt f a l = some a2 → g a2 ≤ g a + l.length
  | [], a, a2, h => by
    unfold foldlOpt at h
    simp only [List.foldl_nil, Option.some.injEq] at h
    rw [← h]
    simp
  | b :: l, a, a2, h => by
    unfold foldlOpt at h
    rw [List.foldl_cons] at h
    rw [show ((some a).bind fun x => f x b) = f a b from rfl] at h
    cases hfb : f a b with
    | none =>
      rw [hfb, foldl_bind_none] at h
      exact absurd h (by simp)
    | some a1 =>
      rw [hfb] at h
      have h2 := foldlOpt_bound hstep l a1 a2 h
      have h3 := hstep a b a1 hfb
      simp only [List.length_cons]
      omega

theorem applyDep_length (avail : List Nat) (v : List (Option ℚ)) (e : Edge) :
    (applyDep avail v e).length = min avail.length v.length := by
  simp [applyDep]

theorem buildColumn_length (avail : List Nat) (deps : List Edge) :
    (buildColumn avail deps).1.length = avail.length := by
  unfold buildColumn
  have : ∀ (l : List Edge) (vc : List (Option ℚ) × Bool),
      vc.1.length = avail.length →
      (l.foldl (fun vc e => (applyDep avail vc.1 e, vc.2 && avail.contains e.start)) vc).1.length
        = avail.length := by
    intro l
    induction l with
    | nil => intro vc h; exact h
    | cons e l ih =>
      intro vc h
      exact ih _ (by simp [applyDep_length, h])
  exact this _ _ (by simp)

theorem oneHot_length (n i : Nat) : (oneHot n i).length = n := by
  simp [oneHot]

theorem goodB_addCarries (avail : List Nat) (v : List (Option ℚ)) (st : BuildState)
    (h : GoodB avail.length st) : GoodB avail.length (addCarries avail v st) := by
  unfold addCarries
  refine foldl_preserve _ _ h ?_
  intro a i ha
  dsimp only
  split
  · exact ha
  · obtain ⟨h1, h2, h3⟩ := ha
    refine ⟨by simp [h1], by simp [h2], ?_⟩
    intro c hc
    rcases List.mem_append.mp hc with hc | hc
    · exact h3 c hc
    · simp only [List.mem_singleton] at hc
      subst hc
      exact oneHot_length _ _

theorem goodB_processNode (act? : Nat → Option (ℚ → ℚ)) (avail : List Nat)
    (st st2 : BuildState) (entry : Nat × List Edge)
    (h : processNode act? avail st entry = some st2) (hg : GoodB avail.length st) :
    GoodB avail.length st2 := by
  unfold processNode at h
  dsimp only at h
  split at h
  · cases hfa : act? entry.1 with
    | none =>
      rw [hfa] at h
      exact absurd h (by simp)
    | some a =>
      rw [hfa] at h
      simp only [Option.some.injEq] at h
      obtain ⟨h1, h2, h3⟩ := hg
      rw [← h]
      refine ⟨by simp [h1], by simp [h2], ?_⟩
      intro c hc
      rcases List.mem_append.mp hc with hc | hc
      · exact h3 c hc
      · simp only [List.mem_singleton] at hc
        subst hc
        simp [buildColumn_length]
  · simp only [Option.some.injEq] at h
    rw [← h]
    exact goodB_addCarries _ _ _ hg

theorem goodB_keepWanted (avail wanted : List Nat) (st : BuildState)
    (h : GoodB avail.length st) : GoodB avail.length (keepWanted avail wanted st) := by
  unfold keepWanted
  refine foldl_preserve _ _ h ?_
  intro a w ha
  refine foldl_preserve _ _ ha ?_
  intro a2 i ha2
  dsimp only
  split
  · obtain ⟨h1, h2, h3⟩ := ha2
    refine ⟨by simp [h1], by simp [h2], ?_⟩
    intro c hc
    rcases List.mem_append.mp hc with hc | hc
    · exact h3 c hc
    · simp only [List.mem_singleton] at hc
      subst hc
      exact oneHot_length _ _
  · exact ha2

theorem goodB_buildStage (act? : Nat → Option (ℚ → ℚ)) (dep : List (Nat × List Edge))
    (avail wanted : List Nat) (bs : BuildState)
    (h : buildStage act? dep avail wanted = some bs) : GoodB avail.length bs := by
  unfold buildStage at h
  rw [Option.map_eq_some'] at h
  obtain ⟨bs0, hb0, hbs⟩ := h
  rw [← hbs]
  refine goodB_keepWanted _ _ _ ?_
  refine foldlOpt_preserve (P := GoodB avail.length) ?_ dep _ _ hb0 ⟨rfl, rfl, by simp⟩
  intro a b a2 hstep ha
  exact goodB_processNode act? avail a a2 b hstep ha

theorem reorderStep_matched (wanted : List Nat) (rs rs2 : ReorderState)
    (x : Nat × (List ℚ × (ℚ → ℚ))) (h : reorderStep wanted rs x = some rs2) :
    rs2.matched ≤ rs.matched + 1 := by
  unfold reorderStep at h
  cases hidx : wanted.findIdx? (fun w => w == x.1) with
  | none =>
    rw [hidx] at h
    simp only [Option.some.injEq] at h
    rw [← h]
    omega
  | some i =>
    rw [hidx] at h
    dsimp only at h
    split at h
    · simp only [Option.some.injEq] at h
      rw [← h]
    · exact absurd h (by simp)

theorem reorderStep_shape (wanted : List Nat) (cols0 : List (List ℚ))
    (rs rs2 : ReorderState) (x : Nat × (List ℚ × (ℚ → ℚ))) (hx : x.2.1 ∈ cols0)
    (h : reorderStep wanted rs x = some rs2)
    (hs : rs.cols.length = cols0.length ∧ ∀ c ∈ rs.cols, c ∈ cols0) :
    rs2.cols.length = cols0.length ∧ ∀ c ∈ rs2.cols, c ∈ cols0 := by
  obtain ⟨h1, h2⟩ := hs
  unfold reorderStep at h
  cases hidx : wanted.findIdx? (fun w => w == x.1) with
  | none =>
    rw [hidx] at h
    simp only [Option.some.injEq] at h
    rw [← h]
    exact ⟨h1, h2⟩
  | some i =>
    rw [hidx] at h
    dsimp only at h
    split at h
    · simp only [Option.some.injEq] at h
      rw [← h]
      refine ⟨by simp [h1], ?_⟩
      intro c hc
      rcases List.mem_or_eq_of_mem_set hc with hc | hc
      · exact h2 c hc
      · subst hc
        exact hx
    · exact absurd h (by simp)

theorem reorderStage_done (wanted next : List Nat) (cols : List (List ℚ))
    (acts : List (ℚ → ℚ)) (c : List (List ℚ)) (a : List (ℚ → ℚ))
    (hn : next.length = cols.length) (ha : acts.length = cols.length)
    (h : reorderStage wanted next cols acts = .done (c, a)) :
    c.length = cols.length ∧ (∀ x ∈ c, x ∈ cols) ∧ wanted.length ≤ cols.length := by
  unfold reorderStage at h
  cases hf : foldlOpt (reorderStep wanted) ⟨cols, acts, 0⟩ (next.zip (cols.zip acts)) with
  | none =>
    rw [hf] at h
    exact absurd h (by simp)
  | some rs =>
    rw [hf] at h
    dsimp only at h
    by_cases hm : rs.matched < wanted.length
    · rw [if_pos hm] at h
      exact absurd h (by simp)
    · rw [if_neg hm] at h
      injection h with h
      injection h with hc hac
      have hshape := foldlOpt_preserve_mem (next.zip (cols.zip acts))
        (fun a2 b a3 hb hfb hp => reorderStep_shape wanted cols a2 a3 b
          ((List.of_mem_zip ((List.of_mem_zip hb).2)).1) hfb hp)
        (next.zip (cols.zip acts)) (fun b hb => hb) _ _ hf ⟨rfl, fun x hx => hx⟩
      have hbound := foldlOpt_bound (g := ReorderState.matched)
        (fun a2 b a3 hfb => reorderStep_matched wanted a2 a3 b hfb) _ _ _ hf
      have hlen : (next.zip (cols.zip acts)).length = cols.length := by
        simp [List.length_zip, hn, ha]
      refine ⟨by rw [← hc]; exact hshape.1, ?_, ?_⟩
      · intro x hx
        exact hshape.2 x (by rw [hc]; exact hx)
      · have hw : wanted.length ≤ rs.matched := Nat.le_of_not_lt hm
        calc wanted.length ≤ rs.matched := hw
          _ ≤ 0 + (next.zip (cols.zip acts)).length := hbound
          _ = cols.length := by simp [hlen]

theorem lastStageCols_cons (st : Stage) (rest : List Stage) (h : rest ≠ []) :
    lastStageCols (st :: rest) = lastStageCols rest := by
  cases rest with
  | nil => exact absurd rfl h
  | cons b t => rfl

theorem fabLoop_chained (act? : Nat → Option (ℚ → ℚ)) (wanted : List Nat) :
    ∀ (fuel : Nat) (dep : List (Nat × List Edge)) (avail : List Nat)
      (stages : List Stage),
      fabLoop act? wanted fuel dep avail = some (Fallible.ok stages) → dep ≠ [] →
      chained avail.length stages ∧ stages ≠ [] ∧
        ∃ m, lastStageCols stages = some m ∧ wanted.length ≤ m := by
  intro fuel
  induction fuel with
  | zero =>
    intro dep avail stages h _
    simp [fabLoop] at h
  | succ n ih =>
    rintro dep avail stages h hne
    cases dep with
    | nil => exact absurd rfl hne
    | cons d ds =>
    rw [fabLoop] at h
    simp only [List.isEmpty_cons, Bool.false_eq_true, if_false] at h
    cases hbs : buildStage act? (d :: ds) avail wanted with
    | none =>
      rw [hbs] at h
      exact absurd h (by simp)
    | some bs =>
    rw [hbs] at h
    dsimp only at h
    obtain ⟨hg1, hg2, hg3⟩ := goodB_buildStage act? (d :: ds) avail wanted bs hbs
    by_cases hp : (List.filter (fun kv => decide ¬ kv.1 ∈ bs.next) (d :: ds)).length
        = (d :: ds).length
    · rw [if_pos hp] at h
      exact absurd h (by simp)
    · rw [if_neg hp] at h
      by_cases hq : (List.filter (fun kv => decide ¬ kv.1 ∈ bs.next) (d :: ds)).isEmpty
      · rw [if_pos hq] at h
        cases hr : reorderStage wanted bs.next bs.cols bs.acts with
        | panicked =>
          rw [hr] at h
          exact absurd h (by simp)
        | missing =>
          rw [hr] at h
          exact absurd h (by simp)
        | done ca =>
          obtain ⟨c, a⟩ := ca
          rw [hr] at h
          simp only [Option.some.injEq] at h
          injection h with h
          subst h
          have hro := reorderStage_done wanted bs.next bs.cols bs.acts c a
            hg1.symm (hg2.trans hg1.symm) hr
          refine ⟨?_, by simp, ⟨c.length, rfl, ?_⟩⟩
          · refine ⟨?_, trivial⟩
            intro col hcol
            exact hg3 col (hro.2.1 col hcol)
          · rw [hro.1]
            exact hro.2.2
      · rw [if_neg hq] at h
        cases hrec : fabLoop act? wanted n
            (List.filter (fun kv => decide ¬ kv.1 ∈ bs.next) (d :: ds)) bs.next with
        | none =>
          rw [hrec] at h
          exact absurd h (by simp)
        | some r =>
          cases r with
          | panicked =>
            rw [hrec] at h
            exact absurd h (by simp)
          | err e =>
            rw [hrec] at h
            exact absurd h (by simp)
          | ok rest =>
            rw [hrec] at h
            simp only [Option.some.injEq] at h
            injection h with h
            subst h
            have hne2 : List.filter (fun kv => decide ¬ kv.1 ∈ bs.next) (d :: ds) ≠ [] := by
              intro hnil
              rw [hnil] at hq
              exact hq rfl
            obtain ⟨ihc, ihne, m, ihlast, ihm⟩ := ih _ _ _ hrec hne2
            refine ⟨⟨hg3, ?_⟩, by simp, ⟨m, ?_, ihm⟩⟩
            · show chained bs.cols.length rest
              rw [hg1]
              exact ihc
            · rw [lastStageCols_cons _ _ ihne]
              exact ihlast

theorem fabLoop_ne_none (act? : Nat → Option (ℚ → ℚ)) (wanted : List Nat) :
    ∀ (fuel : Nat) (dep : List (Nat × List Edge)) (avail : List Nat),
      dep ≠ [] → dep.length ≤ fuel → fabLoop act? wanted fuel dep avail ≠ none := by
  intro fuel
  induction fuel with
  | zero =>
    intro dep avail hne hle
    cases dep with
    | nil => exact absurd rfl hne
    | cons d ds => simp at hle
  | succ n ih =>
    intro dep avail hne hle
    cases dep with
    | nil => exact absurd rfl hne
    | cons d ds =>
    rw [fabLoop]
    simp only [List.isEmpty_cons, Bool.false_eq_true, if_false]
    cases hbs : buildStage act? (d :: ds) avail wanted with
    | none => exact Option.some_ne_none _
    | some bs =>
    dsimp only
    by_cases hp : (List.filter (fun kv => decide ¬ kv.1 ∈ bs.next) (d :: ds)).length
        = (d :: ds).length
    · rw [if_pos hp]
      exact Option.some_ne_none _
    · rw [if_neg hp]
      by_cases hq : (List.filter (fun kv => decide ¬ kv.1 ∈ bs.next) (d :: ds)).isEmpty
      · rw [if_pos hq]
        cases reorderStage wanted bs.next bs.cols bs.acts with
        | panicked => exact Option.some_ne_none _
        | missing => exact Option.some_ne_none _
        | done ca => exact Option.some_ne_none _
      · rw [if_neg hq]
        have hne2 : List.filter (fun kv => decide ¬ kv.1 ∈ bs.next) (d :: ds) ≠ [] := by
          intro hnil
          rw [hnil] at hq
          exact hq rfl
        have hlt : (List.filter (fun kv => decide ¬ kv.1 ∈ bs.next) (d :: ds)).length
            < (d :: ds).length :=
          Nat.lt_of_le_of_ne (List.length_filter_le _ _) hp
        have hle2 : (List.filter (fun kv => decide ¬ kv.1 ∈ bs.next) (d :: ds)).length ≤ n :=
          Nat.lt_succ_iff.mp (Nat.lt_of_lt_of_le hlt hle)
        have := ih _ bs.next hne2 hle2
        cases hrec : fabLoop act? wanted n
            (List.filter (fun kv => decide ¬ kv.1 ∈ bs.next) (d :: ds)) bs.next with
        | none => exact absurd hrec this
        | some r =>
          cases r with
          | panicked => exact Option.some_ne_none _
          | err e => exact Option.some_ne_none _
          | ok rest => exact Option.some_ne_none _

theorem fabricateCore_ne_none (act? : Nat → Option (ℚ → ℚ)) (inIds outIds : List Nat)
    (edges : List Edge) : fabricateCore act? inIds outIds edges ≠ none := by
  unfold fabricateCore
  by_cases hd : (buildDepGraph edges).isEmpty
  · rw [if_pos hd]
    exact Option.some_ne_none _
  · rw [if_neg hd]
    refine fabLoop_ne_none _ _ _ _ _ ?_ (Nat.le_refl _)
    intro hnil
    rw [hnil] at hd
    exact hd rfl

theorem reId_done_length (known : List Nat) :
    ∀ (l : List Node) (s : ReIdState),
      ((l.foldl (reIdStep known) s).done).length = s.done.length + l.length
  | [], s => rfl
  | n :: l, s => by
    rw [List.foldl_cons, reId_done_length known l]
    simp [reIdStep, Nat.add_assoc, Nat.add_comm 1]

theorem outWrap_counts (known : List Nat) :
    ∀ (l : List Node) (s : UnrollState),
      ((l.foldl (addOutWrapper known) s).inputs).length = s.inputs.length + l.length ∧
        (l.foldl (addOutWrapper known) s).outputs = s.outputs
  | [], s => ⟨rfl, rfl⟩
  | n :: l, s => by
    rw [List.foldl_cons]
    refine ⟨?_, ?_⟩
    · rw [(outWrap_counts known l _).1]
      simp [addOutWrapper, Nat.add_assoc, Nat.add_comm 1]
    · rw [(outWrap_counts known l _).2]
      rfl

theorem recStep_preserves (known : List Nat) (A B : Nat) (s : UnrollState) (re : Edge)
    (h : s.inputs.length = A + s.outputs.length ∧ B ≤ s.outputs.length) :
    (unrollRecStep known s re).inputs.length = A + (unrollRecStep known s re).outputs.length ∧
      B ≤ (unrollRecStep known s re).outputs.length := by
  unfold unrollRecStep
  cases s.umap.lookup re.start with
  | some wid => exact h
  | none =>
    refine ⟨?_, ?_⟩
    · simp only [List.length_append, List.length_singleton, h.1]
      omega
    · simp only [List.length_append, List.length_singleton]
      omega

theorem unroll_counts (net : Net) :
    (unroll net).inputs.length = net.inputs.length + (unroll net).outputs.length ∧
      net.outputs.length ≤ (unroll net).outputs.length := by
  have hin : (unrollPhaseIn net).done.length = net.inputs.length := by
    unfold unrollPhaseIn
    rw [reId_done_length]
    simp [(List.perm_insertionSort _ _).length_eq]
  have hout : (unrollPhaseOut net).done.length = net.outputs.length := by
    unfold unrollPhaseOut
    rw [reId_done_length]
    simp [(List.perm_insertionSort _ _).length_eq]
  have h3 : (unrollPhase3 net).inputs.length
        = net.inputs.length + (unrollPhase3 net).outputs.length ∧
      net.outputs.length ≤ (unrollPhase3 net).outputs.length := by
    unfold unrollPhase3
    have hw := outWrap_counts (knownIds net) (unrollPhaseOut net).done
      ⟨(unrollPhaseOut net).edges, (unrollPhaseIn net).done, (unrollPhaseOut net).done, [],
       (unrollPhaseOut net).cursor⟩
    rw [hw.1, hw.2]
    dsimp only
    rw [hin, hout]
    omega
  have h4 := foldl_preserve
    (P := fun s : UnrollState =>
      s.inputs.length = net.inputs.length + s.outputs.length ∧
        net.outputs.length ≤ s.outputs.length)
    (unrollPhaseOut net).recEdges (unrollPhase3 net) h3
    (fun s re hs => recStep_preserves (knownIds net) _ _ s re hs)
  exact h4

/-- C1 counterexample: on netC1 (one declared output) feedforward
fabrication succeeds and the final compiled stage has TWO columns — the
last scheduling round also resolves the non-output node 1, whose column
survives the reorder — so the column count of the final stage does not equal
the declared output count. -/
theorem c1_counterexample :
    lastColsRun netC1 = some 2 ∧ netC1.outputs.length = 1 := by
  constructor <;> decide

/-- C2 counterexample: for the recurrent evaluator fabricated from netC7,
the first call on [5, 0] returns [5, 0] and replaces the memory vector
with the ENTIRE feedforward result [5, 0, 5, 0] — not with the entries
after the first outputs = 2 of it, which would be [5, 0]. -/
theorem c2_counterexample :
    recStep1 netC7 [5, 0] = some ([5, 0], [5, 0, 5, 0]) ∧
      ¬ ([5, 0, 5, 0] : List ℚ) = List.drop 2 [5, 0, 5, 0] := by
  constructor <;> decide

/-- C3 counterexample: the recurrent fabricator on netC7 allocates a memory
vector of length 4 = |unrolled.outputs|, not of length
|unrolled.outputs| − |original.outputs| = 2 as the claim states. -/
theorem c3_counterexample :
    memLenOf netC7 = some 4 ∧
      (unroll netC7).outputs.length - netC7.outputs.length = 2 := by
  constructor <;> decide

/-- C4 counterexample: for netC7 the unroll pass yields 6 inputs and 4
outputs from 2 inputs and 2 outputs, so new-inputs − old-inputs = 4 while
new-outputs − old-outputs = 2; the claimed equality fails. -/
theorem c4_counterexample :
    ¬ ((unroll netC7).inputs.length - netC7.inputs.length =
       (unroll netC7).outputs.length - netC7.outputs.length) := by
  decide

/-- C5: on netC5 both fabricators succeed and, at the length-1 input [0],
the dense evaluator returns [1] (the activation is applied to the zero dot
product) while the sparse evaluator returns [0] (the entry is not stored,
so the sparse evaluator skips the activation and reads back 0.0). -/
theorem c5_divergence :
    denseRun netC5 [0] = some [1] ∧ sparseRun netC5 [0] = some [0] ∧
      ¬ denseRun netC5 [0] = sparseRun netC5 [0] := by
  refine ⟨by decide, by decide, by decide⟩

/-- C7: the recurrent evaluator fabricated from the 2-in/2-out recurrent
net with weight-1 ordinary and recurrent edges 0→2 and 1→3, evaluated on
the sequence [5,0], [5,5], [0,5], [0,0], returns [5,0], [10,5], [5,10],
[0,5]. -/
theorem c7_recurrent_example :
    runRecurrent netC7 [[5, 0], [5, 5], [0, 5], [0, 0]] =
      some [[5, 0], [10, 5], [5, 10], [0, 5]] := by
  decide

/-- C1 (amended): for every graph on which feedforward fabrication
succeeds, the compiled schedule chains dimensionally — every column of the
first stage has one row per (sorted) input, and every column of stage i+1
has as many rows as stage i has columns — and the column count of the
final stage is AT LEAST the number of declared output nodes (it can exceed it,
see the counterexample). -/
theorem c1_amended (net : Net) (stages : List Stage)
    (h : fabricateStages net = some (Fallible.ok stages)) :
    chained net.inputs.length stages ∧ stages ≠ [] ∧
      ∃ m, lastStageCols stages = some m ∧ net.outputs.length ≤ m := by
  unfold fabricateStages fabricateCore at h
  by_cases hd : (buildDepGraph net.edges).isEmpty
  · rw [if_pos hd] at h
    simp at h
  · rw [if_neg hd] at h
    have hne : buildDepGraph net.edges ≠ [] := by
      intro hnil
      rw [hnil] at hd
      exact hd rfl
    have hc := fabLoop_chained (actOf? net)
      (List.insertionSort (· ≤ ·) (net.outputs.map Node.id)) _ _ _ _ h hne
    have hlin : (List.insertionSort (· ≤ ·) (net.inputs.map Node.id)).length
        = net.inputs.length := by
      rw [(List.perm_insertionSort _ _).length_eq, List.length_map]
    have hlout : (List.insertionSort (· ≤ ·) (net.outputs.map Node.id)).length
        = net.outputs.length := by
      rw [(List.perm_insertionSort _ _).length_eq, List.length_map]
    obtain ⟨h1, h2, m, h3, h4⟩ := hc
    refine ⟨?_, h2, m, h3, ?_⟩
    · rw [← hlin]
      exact h1
    · rw [← hlout]
      exact h4

/-- Witness for the amended C1, instantiated at netC1 with the concrete
fabricated stage list. -/
theorem c1_witness :
    chained netC1.inputs.length stagesC1 ∧ stagesC1 ≠ [] ∧
      ∃ m, lastStageCols stagesC1 = some m ∧ netC1.outputs.length ≤ m :=
  c1_amended netC1 stagesC1 rfl

/-- C2 (amended): on every call, the recurrent evaluator concatenates the
input with the persisted memory, runs the feedforward evaluator on the
concatenation, returns the first outputs entries, and replaces the memory
with the ENTIRE result vector (not just the entries after the first
outputs). -/
theorem c2_amended (ev : MatrixRecurrentEvaluator) (input : List ℚ) :
    (ev.evaluate input).1
        = (ev.evaluator.evaluate (input ++ ev.internal)).take ev.outputs ∧
      (ev.evaluate input).2.internal = ev.evaluator.evaluate (input ++ ev.internal) ∧
      (ev.evaluate input).2.evaluator = ev.evaluator ∧
      (ev.evaluate input).2.outputs = ev.outputs :=
  ⟨rfl, rfl, rfl, rfl⟩

/-- C3 (amended): for every recurrent graph on which fabrication succeeds,
the zero-initialized memory vector has length equal to the number of
outputs of the UNROLLED graph (with no subtraction of the original output
count). -/
theorem c3_amended (net : Net) (ev : MatrixRecurrentEvaluator)
    (h : fabricateRecurrent net = some (Fallible.ok ev)) :
    ev.internal.length = (unroll net).outputs.length := by
  unfold fabricateRecurrent at h
  cases hf : matrixFeedforwardFabricate (unroll net) with
  | none =>
    rw [hf] at h
    exact absurd h (by simp)
  | some r =>
    rw [hf] at h
    cases r with
    | panicked => exact absurd h (by simp)
    | err e => exact absurd h (by simp)
    | ok ev2 =>
      dsimp only at h
      by_cases hc : (unroll net).inputs.length - net.inputs.length
          = (unroll net).outputs.length
      · rw [if_pos hc] at h
        simp only [Option.some.injEq] at h
        injection h with h
        rw [← h]
        simp
      · rw [if_neg hc] at h
        exact absurd h (by simp)

/-- Witness for the amended C3, instantiated at netC7 with the concrete
fabricated recurrent evaluator. -/
theorem c3_witness : evC3.internal.length = (unroll netC7).outputs.length :=
  c3_amended netC7 evC3 rfl

/-- C4 (amended): for every recurrent graph, the number of new inputs minus
the number of old inputs equals the TOTAL number of new outputs (not the
difference of output counts): each original output gains a wrapper input,
and each fresh recurrent source gains one wrapper input and one wrapper
output. -/
theorem c4_amended (net : Net) :
    (unroll net).inputs.length - net.inputs.length = (unroll net).outputs.length := by
  obtain ⟨h1, _⟩ := unroll_counts net
  omega

/-- C8 counterexample: on netC8 (declared nodes 0, 10, 20; single edge
0→20) fabrication reaches the final reorder with one column and matches
node 20 at wanted index 1, so the source panics with an index out of
bounds (modelled by Fallible.panicked) instead of returning Ok or Err.
The second conjunct records that netC8 is well formed: every edge endpoint
is a declared node. -/
theorem c8_counterexample :
    fabricateStages netC8 = some Fallible.panicked ∧
      (netC8.edges.all (fun e =>
        (netC8.nodes.map Node.id).contains e.start &&
          (netC8.nodes.map Node.id).contains e.endN)) = true := by
  constructor
  · rfl
  · decide

/-- C8 (amended): feedforward fabrication always terminates.  The
scheduler loop, given fuel equal to the number of nodes with incoming
edges (the initial dependency-graph size), never exhausts it — every round
either errors or strictly shrinks the dependency graph — so fabricate
always returns within that bound: with Ok, with Err, or by panicking in
the final-reorder index write (the panic is reachable on well-formed nets,
see the counterexample, so Ok-or-Err cannot be guaranteed). -/
theorem c8_terminates (net : Net) :
    ∃ r : Fallible (List Stage), fabricateStages net = some r := by
  cases hr : fabricateStages net with
  | none =>
    exact absurd hr (fabricateCore_ne_none (actOf? net) _ _ _)
  | some r => exact ⟨r, rfl⟩

/-- C10: the unroll pass adds one wrapper input per original output and one
wrapper input plus one wrapper output per fresh recurrent source, so there
is a W with |unrolled.inputs| = |inputs| + |outputs| + W and
|unrolled.outputs| = |outputs| + W; consequently
|unrolled.inputs| − |inputs| = |unrolled.outputs| always holds, the
assertion in the recurrent fabricator never fails, fabricate never runs
out of loop fuel, and any panic of the recurrent fabricator is already a
panic of the feedforward fabricator — never the assertion. -/
theorem c10_unroll_wrappers (net : Net) :
    (∃ W, (unroll net).inputs.length = net.inputs.length + net.outputs.length + W ∧
        (unroll net).outputs.length = net.outputs.length + W) ∧
      (unroll net).inputs.length - net.inputs.length = (unroll net).outputs.length ∧
      fabricateRecurrent net ≠ none ∧
      (fabricateRecurrent net = some Fallible.panicked →
        fabricateStages (unroll net) = some Fallible.panicked) := by
  obtain ⟨h1, h2⟩ := unroll_counts net
  refine ⟨⟨(unroll net).outputs.length - net.outputs.length, by omega, by omega⟩,
    by omega, ?_⟩
  cases hf : fabricateStages (unroll net) with
  | none =>
    exact absurd hf (fabricateCore_ne_none (actOf? (unroll net)) _ _ _)
  | some r =>
    cases r with
    | panicked =>
      have hmf : matrixFeedforwardFabricate (unroll net) = some Fallible.panicked := by
        unfold matrixFeedforwardFabricate fabricateF
        rw [hf]
        rfl
      have hfr : fabricateRecurrent net = some Fallible.panicked := by
        unfold fabricateRecurrent
        generalize hgen : matrixFeedforwardFabricate (unroll net) = z
        rw [hgen] at hmf
        subst hmf
        rfl
      exact ⟨by rw [hfr]; exact Option.some_ne_none _, fun _ => rfl⟩
    | err e =>
      have hmf : matrixFeedforwardFabricate (unroll net) = some (Fallible.err e) := by
        unfold matrixFeedforwardFabricate fabricateF
        rw [hf]
        rfl
      have hfr : fabricateRecurrent net = some (Fallible.err e) := by
        unfold fabricateRecurrent
        generalize hgen : matrixFeedforwardFabricate (unroll net) = z
        rw [hgen] at hmf
        subst hmf
        rfl
      refine ⟨by rw [hfr]; exact Option.some_ne_none _, fun habs => ?_⟩
      rw [hfr] at habs
      exact absurd habs (by simp)
    | ok s =>
      have hmf : matrixFeedforwardFabricate (unroll net) = some (Fallible.ok ⟨s⟩) := by
        unfold matrixFeedforwardFabricate fabricateF
        rw [hf]
        rfl
      have hfr : fabricateRecurrent net
          = some (Fallible.ok ⟨List.replicate (unroll net).outputs.length 0, ⟨s⟩,
              net.outputs.length⟩) := by
        unfold fabricateRecurrent
        generalize hgen : matrixFeedforwardFabricate (unroll net) = z
        rw [hgen] at hmf
        subst hmf
        dsimp only
        rw [if_pos (by omega)]
      refine ⟨by rw [hfr]; exact Option.some_ne_none _, fun habs => ?_⟩
      rw [hfr] at habs
      exact absurd habs (by simp)

theorem applyDep_getD :
    ∀ (avail : List Nat) (v : List (Option ℚ)) (e : Edge) (p : Nat),
      p < avail.length → p < v.length →
      (applyDep avail v e).getD p none
        = if avail.getD p 0 = e.start then some e.weight else v.getD p none
  | [], _, _, p, hp, _ => absurd hp (by simp)
  | _ :: _, [], _, p, _, hv => absurd hv (by simp)
  | a :: avail, x :: v, e, 0, _, _ => rfl
  | a :: avail, x :: v, e, p + 1, hp, hv =>
    applyDep_getD avail v e p (Nat.lt_of_succ_lt_succ hp) (Nat.lt_of_succ_lt_succ hv)

theorem buildColumn_append (avail : List Nat) (l : List Edge) (e : Edge) :
    (buildColumn avail (l ++ [e])).1 = applyDep avail (buildColumn avail l).1 e := by
  unfold buildColumn
  rw [List.foldl_append]
  rfl

/-- C9: when two ordinary edges share the same start and end, the weight of
the edge that comes last in iteration order wins.  First conjunct: for
every dependency list ending in edge e and every position p of the
available list holding e.start, the compute vector carries e.weight at p
(the write of the last edge overwrites any earlier one).  Second conjunct:
end to end, the net with duplicate edges 0→1 of weights 2 then 7 compiles
to an evaluator computing 7·x — not 9·x, so the weights are overwritten,
not summed. -/
theorem c9_duplicate_edges :
    (∀ (avail : List Nat) (pre : List Edge) (e : Edge) (p : Nat),
        p < avail.length → avail.getD p 0 = e.start →
        ((buildColumn avail (pre ++ [e])).1).getD p none = some e.weight) ∧
      denseRun netC9 [1] = some [7] ∧ ¬ denseRun netC9 [1] = some [9] := by
  refine ⟨?_, by decide, by decide⟩
  intro avail pre e p hp hs
  rw [buildColumn_append,
    applyDep_getD avail _ e p hp (by rw [buildColumn_length]; exact hp), if_pos hs]

/-- Witness for the quantified conjunct of C9 at a concrete input: with
available = [0] and the duplicate-edge list [0→1 weight 2, 0→1 weight 7],
position 0 of the compute vector holds the later weight 7. -/
theorem c9_witness :
    ((buildColumn [0] ([⟨0, 1, 2⟩] ++ [⟨0, 1, 7⟩])).1).getD 0 none = some 7 :=
  c9_duplicate_edges.1 [0] [⟨0, 1, 2⟩] ⟨0, 1, 7⟩ 0 (by decide) (by decide)

theorem find?_congr_perm {l l2 : List Node} (hperm : List.Perm l l2)
    (hnd : (l.map Node.id).Nodup) (d : Nat) :
    l.find? (fun n => n.id == d) = l2.find? (fun n => n.id == d) := by
  cases hfl : l.find? (fun n => n.id == d) with
  | none =>
    cases hfl2 : l2.find? (fun n => n.id == d) with
    | none => rfl
    | some b =>
      have hb := List.find?_some hfl2
      have hbm : b ∈ l := hperm.symm.subset (List.mem_of_find?_eq_some hfl2)
      have := List.find?_eq_none.mp hfl b hbm
      rw [hb] at this
      exact absurd rfl this
  | some a =>
    have ha := List.find?_some hfl
    have ham := List.mem_of_find?_eq_some hfl
    cases hfl2 : l2.find? (fun n => n.id == d) with
    | none =>
      have := List.find?_eq_none.mp hfl2 a (hperm.subset ham)
      rw [ha] at this
      exact absurd rfl this
    | some b =>
      have hb := List.find?_some hfl2
      have hbm : b ∈ l := hperm.symm.subset (List.mem_of_find?_eq_some hfl2)
      have had : a.id = d := by simpa using ha
      have hbd : b.id = d := by simpa using hb
      have : a = b :=
        List.inj_on_of_nodup_map hnd ham hbm (by rw [had, hbd])
      rw [this]

theorem nodes_perm (net net2 : Net) (hin : net.inputs = net2.inputs)
    (hhid : net.hidden = net2.hidden) (hperm : List.Perm net.outputs net2.outputs) :
    List.Perm net.nodes net2.nodes := by
  unfold Net.nodes
  rw [hin, hhid]
  exact List.Perm.append_left _ hperm

theorem actOf_congr (net net2 : Net) (hin : net.inputs = net2.inputs)
    (hhid : net.hidden = net2.hidden) (hperm : List.Perm net.outputs net2.outputs)
    (hnd : (net.nodes.map Node.id).Nodup) : actOf? net = actOf? net2 := by
  funext d
  unfold actOf?
  rw [find?_congr_perm (nodes_perm net net2 hin hhid hperm) hnd d]

theorem sort_eq_of_perm {l l2 : List Nat} (h : List.Perm l l2) :
    List.insertionSort (· ≤ ·) l = List.insertionSort (· ≤ ·) l2 :=
  List.eq_of_perm_of_sorted
    ((List.perm_insertionSort _ _).trans (h.trans (List.perm_insertionSort _ _).symm))
    (List.sorted_insertionSort _ _) (List.sorted_insertionSort _ _)

theorem fabricateCore_out_congr (act? : Nat → Option (ℚ → ℚ)) (inIds : List Nat)
    (o1 o2 : List Nat) (edges : List Edge)
    (h : List.insertionSort (· ≤ ·) o1 = List.insertionSort (· ≤ ·) o2) :
    fabricateCore act? inIds o1 edges = fabricateCore act? inIds o2 edges := by
  unfold fabricateCore
  rw [h]

/-- C6: output positions follow the ascending order of the declared output
ids, not the declared list order.  First conjunct: fabrication is invariant
under permuting the declared output list (the compiled evaluator depends on
the outputs only through their sorted ids), for nets with distinct node
ids.  Second conjunct: the net declaring outputs [3, 2] (descending) with
edges 0→3 weight 2 and 0→2 weight 5 evaluates input [1] to [5, 2] — output
position 0 carries the value of node 2, the smallest declared output id. -/
theorem c6_output_order :
    (∀ net net2 : Net, net.inputs = net2.inputs → net.hidden = net2.hidden →
        net.edges = net2.edges → List.Perm net.outputs net2.outputs →
        (net.nodes.map Node.id).Nodup → fabricateF net = fabricateF net2) ∧
      denseRun netC6 [1] = some [5, 2] := by
  refine ⟨?_, by decide⟩
  intro net net2 hin hhid hed hperm hnd
  unfold fabricateF fabricateStages
  rw [actOf_congr net net2 hin hhid hperm hnd, hin, hed,
    fabricateCore_out_congr _ _ _ _ _ (sort_eq_of_perm (hperm.map Node.id))]

/-- Witness for the quantified conjunct of C6: netC6 (outputs declared [3, 2])
and netC6b (outputs declared [2, 3]) fabricate to the same evaluator, and
the output order is ascending by id. -/
theorem c6_witness :
    fabricateF netC6 = fabricateF netC6b ∧ denseRun netC6 [1] = some [5, 2] := by
  refine ⟨c6_output_order.1 netC6 netC6b rfl rfl rfl ?_ (by decide), c6_output_order.2⟩
  show List.Perm [Node.mk 3 idAct, Node.mk 2 idAct] [Node.mk 2 idAct, Node.mk 3 idAct]
  exact List.Perm.swap _ _ _

end Favannat
